import Mathlib

/-!
Verification development for the ReactChain single-node in-memory ledger
engine (src/services/blockchainService.ts and its crypto/UI collaborators).

The TypeScript engine is shallowly embedded: the Blockchain class becomes a
record, its mutating methods become pure functions from the old state to the
new state, the unbounded proof-of-work loop becomes a fuel-indexed search
(exhausting the fuel models cancelling the cooperative async generator
before completion), and the SHA-256 digest and ECDSA signature check are
parameters (HashFun, VerifyFun) exactly as the service imports them from
cryptoService.  JS numbers that are only ever integers here (amounts, fees,
timestamps, nonces, indices) are modelled as Nat; balances are Int since
they can go negative.  Definitions come first, then the lemmas and the
claim theorems.
-/

/-- Transaction value type, from src/types.ts.  The `fee` field is optional:
the Transaction interface omits it, but the current WalletView builds
transactions carrying a numeric `fee`, so it is modelled as `Option Nat`. -/
structure Transaction where
  id : String
  sender : String
  recipient : String
  amount : Nat
  fee : Option Nat
  timestamp : Nat
  signature : String
deriving Repr, DecidableEq

/-- Block value type, from src/types.ts. -/
structure Block where
  index : Nat
  timestamp : Nat
  transactions : List Transaction
  previousHash : String
  hash : String
  nonce : Nat
  difficulty : Nat
deriving Repr, DecidableEq

/-- State of the Blockchain class: committed chain, pending pool and the two
configuration knobs (constructor defaults: difficulty 2, miningReward 100). -/
structure Blockchain where
  chain : List Block
  pendingTransactions : List Transaction
  difficulty : Nat
  miningReward : Nat
deriving Repr, DecidableEq

/-- The SHA-256 digest function `sha256 : string -> string` from
cryptoService, kept abstract. -/
abbrev HashFun := String → String

/-- `verifySignature(publicKeyHex, signatureHex, data) -> bool` from
cryptoService, kept abstract. -/
abbrev VerifyFun := String → String → String → Bool

/-- JSON rendering of one transaction, modelling `JSON.stringify` on the
runtime transaction objects; fields in the declaration order of the
Transaction interface, `fee` present only when the transaction carries one. -/
def txJson (t : Transaction) : String :=
  "\x7b\"id\":\"" ++ t.id ++ "\",\"sender\":\"" ++ t.sender ++
    "\",\"recipient\":\"" ++ t.recipient ++
    "\",\"amount\":" ++ toString t.amount ++
    (match t.fee with
     | none => ""
     | some f => ",\"fee\":" ++ toString f) ++
    ",\"timestamp\":" ++ toString t.timestamp ++
    ",\"signature\":\"" ++ t.signature ++ "\"\x7d"

/-- `JSON.stringify(transactions)` for a transaction list. -/
def txsJson (l : List Transaction) : String :=
  "[" ++ String.intercalate "," (l.map txJson) ++ "]"

/-- `calculateHash(index, previousHash, timestamp, transactions, nonce)`:
digest of `index + previousHash + timestamp + JSON.stringify(transactions)
+ nonce` (JS string concatenation). -/
def calculateHash (hF : HashFun) (index : Nat) (previousHash : String)
    (timestamp : Nat) (transactions : List Transaction) (nonce : Nat) : String :=
  hF (toString index ++ previousHash ++ toString timestamp ++
      txsJson transactions ++ toString nonce)

/-- `createGenesisBlock()`; the creation instant `Date.now()` is passed in. -/
def createGenesisBlock (hF : HashFun) (timestamp : Nat) : Block :=
  { index := 0
    timestamp := timestamp
    transactions := []
    previousHash := "0"
    hash := calculateHash hF 0 "0" timestamp [] 0
    nonce := 0
    difficulty := 0 }

/-- Submission-time error taxonomy of `addTransaction` (spec section 7). -/
inductive TxError where
  | MissingField
  | MissingSignature
deriving Repr, DecidableEq

/-- `addTransaction(transaction)`: throws when sender or recipient is the
empty string (JS falsy), then when the signature is empty; otherwise pushes
the transaction onto the pending pool.  A thrown error is modelled as
`some err` paired with the untouched engine state. -/
def addTransaction (bc : Blockchain) (tx : Transaction) :
    Option TxError × Blockchain :=
  if tx.sender = "" ∨ tx.recipient = "" then
    (some TxError.MissingField, bc)
  else if tx.signature = "" then
    (some TxError.MissingSignature, bc)
  else
    (none, { bc with pendingTransactions := bc.pendingTransactions ++ [tx] })

/-- The proof-of-work target `Array(difficulty + 1).join('0')`:
`difficulty` many `'0'` characters. -/
def powTarget (d : Nat) : List Char :=
  List.replicate d '0'

/-- The loop guard `hash.substring(0, difficulty) === target`. -/
def meetsDifficulty (h : String) (d : Nat) : Bool :=
  h.data.take d == powTarget d

/-- The proof-of-work loop of `minePendingTransactions`: starting from
`nonce`, recompute the block hash and stop at the first nonce whose digest
meets the difficulty.  The source loop is unbounded; `fuel` bounds how many
attempts run before the caller cancels the in-flight generator, so `none`
means the search was abandoned before completion. -/
def powSearch (hF : HashFun) (index : Nat) (previousHash : String)
    (timestamp : Nat) (transactions : List Transaction) (difficulty : Nat) :
    Nat → Nat → Option (Nat × String)
  | 0, _ => none
  | fuel + 1, nonce =>
    let h := calculateHash hF index previousHash timestamp transactions nonce
    if meetsDifficulty h difficulty then some (nonce, h)
    else powSearch hF index previousHash timestamp transactions difficulty fuel (nonce + 1)

/-- The system reward transaction synthesized at the top of
`minePendingTransactions`; the fresh uuid and `Date.now()` are passed in. -/
def mineRewardTx (minerAddress : String) (reward : Nat) (rewardId : String)
    (rewardTimestamp : Nat) : Transaction :=
  { id := rewardId
    sender := "SYSTEM"
    recipient := minerAddress
    amount := reward
    fee := none
    timestamp := rewardTimestamp
    signature := "SYSTEM_REWARD" }

/-- `minePendingTransactions(minerAddress)`: build the candidate list (pool +
reward transaction), fix index/previousHash/timestamp once, run the nonce
search, and only on success push the new block and clear the pool.  Returns
the new engine state together with the committed block; `none` in the second
component means no block was committed (cancellation, or an empty chain on
which the source would throw before mutating anything). -/
def minePendingTransactions (hF : HashFun) (bc : Blockchain)
    (minerAddress rewardId : String) (rewardTimestamp timestamp fuel : Nat) :
    Blockchain × Option Block :=
  match bc.chain.getLast? with
  | none => (bc, none)
  | some previousBlock =>
    let transactions :=
      bc.pendingTransactions ++
        [mineRewardTx minerAddress bc.miningReward rewardId rewardTimestamp]
    let index := previousBlock.index + 1
    match powSearch hF index previousBlock.hash timestamp transactions
        bc.difficulty fuel 0 with
    | none => (bc, none)
    | some (nonce, h) =>
      let newBlock : Block :=
        { index := index
          timestamp := timestamp
          transactions := transactions
          previousHash := previousBlock.hash
          hash := h
          nonce := nonce
          difficulty := bc.difficulty }
      ({ bc with chain := bc.chain ++ [newBlock], pendingTransactions := [] },
       some newBlock)

/-- The message the validator rebuilds for signature verification:
`tx.sender + tx.recipient + tx.amount + tx.timestamp`
(blockchainService.ts line 131).  Note: no fee. -/
def validatorMessage (tx : Transaction) : String :=
  tx.sender ++ tx.recipient ++ toString tx.amount ++ toString tx.timestamp

/-- Per-transaction validator check: system reward transactions are skipped,
every other transaction must verify against its sender. -/
def txSignatureOk (vF : VerifyFun) (tx : Transaction) : Bool :=
  tx.sender == "SYSTEM" || vF tx.sender tx.signature (validatorMessage tx)

/-- Result record of `isChainValid`. -/
structure ChainCheckResult where
  isValid : Bool
  errorBlockIndex : Int
deriving Repr, DecidableEq

/-- Body of the `isChainValid` loop from block index `i` on: previous-hash
link, then transaction signatures, then recomputed block hash, returning at
the first failure. -/
def isChainValidFrom (hF : HashFun) (vF : VerifyFun) (previousBlock : Block) :
    List Block → Nat → ChainCheckResult
  | [], _ => ⟨true, -1⟩
  | currentBlock :: rest, i =>
    if currentBlock.previousHash ≠ previousBlock.hash then ⟨false, (i : Int)⟩
    else if currentBlock.transactions.all (txSignatureOk vF) = false then ⟨false, (i : Int)⟩
    else if currentBlock.hash ≠ calculateHash hF currentBlock.index
        currentBlock.previousHash currentBlock.timestamp
        currentBlock.transactions currentBlock.nonce then ⟨false, (i : Int)⟩
    else isChainValidFrom hF vF currentBlock rest (i + 1)

/-- `isChainValid()`: walk blocks `1 .. N-1` in ascending order; the genesis
block is only ever read as the predecessor of block 1. -/
def isChainValid (hF : HashFun) (vF : VerifyFun) (bc : Blockchain) :
    ChainCheckResult :=
  match bc.chain with
  | [] => ⟨true, -1⟩
  | genesis :: rest => isChainValidFrom hF vF genesis rest 1

/-- `getBalanceOfAddress(address)`: replay committed transactions, debiting
the sender and crediting the recipient, then debit pending transactions sent
by the address.  The `fee` field is never consulted. -/
def getBalanceOfAddress (bc : Blockchain) (address : String) : Int :=
  let balance : Int := 0
  let balance := bc.chain.foldl (fun bal block =>
    block.transactions.foldl (fun bal trans =>
      let bal := if trans.sender == address then bal - (trans.amount : Int) else bal
      if trans.recipient == address then bal + (trans.amount : Int) else bal) bal)
    balance
  bc.pendingTransactions.foldl (fun bal trans =>
    if trans.sender == address then bal - (trans.amount : Int) else bal) balance

/-- `setDifficulty(diff)`. -/
def setDifficulty (bc : Blockchain) (diff : Nat) : Blockchain :=
  { bc with difficulty := diff }

/-- `setMiningReward(amount)`. -/
def setMiningReward (bc : Blockchain) (amount : Nat) : Blockchain :=
  { bc with miningReward := amount }

/-- The fake transaction `corruptBlock` injects into a block with no
transactions; `Date.now()` is passed in. -/
def fakeHackTx (timestamp : Nat) : Transaction :=
  { id := "FAKE"
    sender := "HACKER"
    recipient := "HACKER"
    amount := 1000000
    fee := none
    timestamp := timestamp
    signature := "FAKE_SIG" }

/-- The transaction-list mutation of `corruptBlock`: set the first
transaction's amount to 999999999, or push the fake transaction if the block
had none. -/
def corruptTransactions (timestamp : Nat) :
    List Transaction → List Transaction
  | [] => [fakeHackTx timestamp]
  | t :: rest => { t with amount := 999999999 } :: rest

/-- Apply `corruptTransactions` to the block at the given position. -/
def corruptChainAt (timestamp : Nat) : Nat → List Block → List Block
  | _, [] => []
  | 0, b :: rest =>
    { b with transactions := corruptTransactions timestamp b.transactions } :: rest
  | n + 1, b :: rest => b :: corruptChainAt timestamp n rest

/-- `corruptBlock(index)`: in-range indices get their block's transaction
list mutated without re-mining; out-of-range indices leave the chain alone. -/
def corruptBlock (bc : Blockchain) (index : Nat) (timestamp : Nat) : Blockchain :=
  if index < bc.chain.length then
    { bc with chain := corruptChainAt timestamp index bc.chain }
  else bc

/-- Placeholder block, only used as the default value of positional list
access in statements about chains. -/
def blankBlock : Block :=
  { index := 0, timestamp := 0, transactions := [], previousHash := "",
    hash := "", nonce := 0, difficulty := 0 }

/-- Validator check (a): previous-hash link to the predecessor. -/
def linkOk (previousBlock currentBlock : Block) : Bool :=
  currentBlock.previousHash == previousBlock.hash

/-- Validator check (b): every non-system transaction verifies. -/
def sigsOk (vF : VerifyFun) (currentBlock : Block) : Bool :=
  currentBlock.transactions.all (txSignatureOk vF)

/-- Validator check (c): the stored hash equals the digest recomputed from
index, previousHash, timestamp, transactions and nonce. -/
def hashOk (hF : HashFun) (currentBlock : Block) : Bool :=
  currentBlock.hash == calculateHash hF currentBlock.index
    currentBlock.previousHash currentBlock.timestamp
    currentBlock.transactions currentBlock.nonce

/-- Conjunction of the three validator checks for one block. -/
def blockOk (hF : HashFun) (vF : VerifyFun) (previousBlock currentBlock : Block) : Bool :=
  linkOk previousBlock currentBlock && sigsOk vF currentBlock &&
    hashOk hF currentBlock

/-- The adjacent pair `(chain[k], chain[k+1])` fails a validator check;
block index `k + 1` is then the index the validator reports. -/
def badPairAt (hF : HashFun) (vF : VerifyFun) (l : List Block) (k : Nat) : Prop :=
  k + 1 < l.length ∧
    blockOk hF vF (l.getD k blankBlock) (l.getD (k + 1) blankBlock) = false

instance badPairAtDecidable (hF : HashFun) (vF : VerifyFun) (l : List Block) :
    DecidablePred (badPairAt hF vF l) := fun _ => by
  unfold badPairAt; infer_instance

/-- Net effect of one committed transaction on an address: +amount when the
address is the recipient, -amount when it is the sender (the claim's
committed-replay rule; fees play no part in the engine's balance). -/
def txDelta (address : String) (tx : Transaction) : Int :=
  (if tx.recipient == address then (tx.amount : Int) else 0) -
    (if tx.sender == address then (tx.amount : Int) else 0)

/-- Net effect of one committed block on an address. -/
def blockDelta (address : String) (b : Block) : Int :=
  (b.transactions.map (txDelta address)).sum

/-- Net effect of a whole chain on an address, in chain order. -/
def chainDelta (address : String) (chain : List Block) : Int :=
  (chain.map (blockDelta address)).sum

/-- Total amount sent by an address over a transaction list. -/
def sentSum (address : String) (txs : List Transaction) : Int :=
  (txs.map (fun tx => if tx.sender == address then (tx.amount : Int) else 0)).sum

/-- Total amount received by an address over a transaction list. -/
def recvSum (address : String) (txs : List Transaction) : Int :=
  (txs.map (fun tx => if tx.recipient == address then (tx.amount : Int) else 0)).sum

/-- The string WalletView.confirmSend signs (src/components/WalletView.tsx
line 64): sender + recipient + amount + fee + timestamp. -/
def confirmSendMessage (sender recipient : String) (amount fee timestamp : Nat) :
    String :=
  sender ++ recipient ++ toString amount ++ toString fee ++ toString timestamp

/-- The string the older wallet view signs (src/unnamed/part_000, handleSend
line 49): sender + recipient + amount + timestamp, without fee. -/
def handleSendMessage (sender recipient : String) (amount timestamp : Nat) :
    String :=
  sender ++ recipient ++ toString amount ++ toString timestamp

/-- A fee-carrying transaction as WalletView.confirmSend creates it. -/
def txFeeCex : Transaction :=
  { id := "t", sender := "A", recipient := "B", amount := 10, fee := some 1,
    timestamp := 0, signature := "s" }

/-- Identity digest used to instantiate the abstract hash on concrete runs
(any function of the input string exercises the same control flow). -/
def idHash : HashFun := fun s => s

/-- A verifier that rejects every signature; running the validator with it
shows exactly where signature verification is never consulted. -/
def rejectAll : VerifyFun := fun _ _ _ => false

/-- Concrete genesis block at timestamp 0. -/
def gen0 : Block := createGenesisBlock idHash 0

/-- Engine right after genesis, difficulty turned down to 0 so a concrete
mine completes at nonce 0. -/
def bcW : Blockchain :=
  { chain := [gen0], pendingTransactions := [], difficulty := 0,
    miningReward := 100 }

/-- Engine state after the concrete mine on bcW. -/
def bcW1 : Blockchain := (minePendingTransactions idHash bcW "M" "r" 0 0 1).1

/-- The block committed by the concrete mine on bcW. -/
def blkW1 : Block :=
  (minePendingTransactions idHash bcW "M" "r" 0 0 1).2.getD blankBlock

/-- A signed user transaction A -> B of amount 10 (no fee). -/
def txAB : Transaction :=
  { id := "t1", sender := "A", recipient := "B", amount := 10, fee := none,
    timestamp := 0, signature := "sigAB" }

/-- Engine with txAB pending, used for the balance-conservation claims. -/
def bcC7 : Blockchain :=
  { chain := [gen0], pendingTransactions := [txAB], difficulty := 0,
    miningReward := 100 }

/-- Engine state after mining bcC7's pool for miner M. -/
def bcC7after : Blockchain :=
  (minePendingTransactions idHash bcC7 "M" "r" 0 1 1).1

/-- The block committed when mining bcC7's pool. -/
def blkC7 : Block :=
  (minePendingTransactions idHash bcC7 "M" "r" 0 1 1).2.getD blankBlock

/-- A forged reward-style transaction: sender is the SYSTEM sentinel, the
recipient and amount are attacker-chosen, the signature is arbitrary
non-empty text never produced by any key. -/
def forgedTx : Transaction :=
  { id := "forged", sender := "SYSTEM", recipient := "EVE", amount := 1000000,
    fee := none, timestamp := 3, signature := "x" }

/-- Engine after submitting the forged transaction through addTransaction. -/
def bcC10 : Blockchain := (addTransaction bcW forgedTx).2

/-- Result of mining the forged transaction into a block. -/
def resC10 : Blockchain × Option Block :=
  minePendingTransactions idHash bcC10 "M" "r" 7 9 1

/-- With-fee balance rule, modelled from the claim's words for comparison
with the code: a fee, where present, is an additional debit applied to the
sender alongside the amount; pending debits use the amount, as the claim's
pending clause states. -/
def txDeltaClaimFee (address : String) (tx : Transaction) : Int :=
  (if tx.recipient == address then (tx.amount : Int) else 0) -
    (if tx.sender == address then
      (tx.amount : Int) + ((tx.fee.getD 0 : Nat) : Int) else 0)

/-- Balance as claim C6 words it, fee debit included. -/
def balanceSpecWithFee (bc : Blockchain) (address : String) : Int :=
  ((bc.chain.map
      (fun b => (b.transactions.map (txDeltaClaimFee address)).sum)).sum) -
    sentSum address bc.pendingTransactions

/-- A committed block holding the fee-carrying transaction. -/
def feeBlockCex : Block :=
  { index := 1, timestamp := 0, transactions := [txFeeCex],
    previousHash := "0", hash := "h", nonce := 0, difficulty := 0 }

/-- Chain state for the C6 fee counterexample. -/
def bcFeeCex : Blockchain :=
  { chain := [feeBlockCex], pendingTransactions := [], difficulty := 2,
    miningReward := 100 }

/-- bcW1 with block 1 corrupted (its first transaction's amount rewritten). -/
def bcCorrupt1 : Blockchain := corruptBlock bcW1 1 7

/-- bcCorrupt1 with the genesis block corrupted as well. -/
def bcCorrupt10 : Blockchain := corruptBlock bcCorrupt1 0 8

/-- A transaction with an empty signature, for the C5 witness. -/
def txNoSig : Transaction :=
  { id := "t2", sender := "A", recipient := "B", amount := 5, fee := none,
    timestamp := 0, signature := "" }

/-- Engine with a pending transaction and unreachable difficulty 1 under the
identity digest (every digest starts with the block index digit), so any
fuel budget models a cancelled in-flight mine. -/
def bcW9 : Blockchain :=
  { chain := [gen0], pendingTransactions := [txAB], difficulty := 1,
    miningReward := 100 }

/-! ## Lemmas and claim theorems -/

lemma badPairAt_cons_succ (hF : HashFun) (vF : VerifyFun) (b : Block)
    (l : List Block) (k : Nat) :
    badPairAt hF vF (b :: l) (k + 1) ↔ badPairAt hF vF l k := by
  unfold badPairAt
  simp [List.getD_cons_succ, Nat.succ_lt_succ_iff]

lemma blockOk_decompose (hF : HashFun) (vF : VerifyFun)
    (previousBlock currentBlock : Block)
    (h : blockOk hF vF previousBlock currentBlock = true) :
    currentBlock.previousHash = previousBlock.hash ∧
      currentBlock.transactions.all (txSignatureOk vF) = true ∧
      currentBlock.hash = calculateHash hF currentBlock.index
        currentBlock.previousHash currentBlock.timestamp
        currentBlock.transactions currentBlock.nonce := by
  unfold blockOk linkOk sigsOk hashOk at h
  rcases Bool.and_eq_true_iff.mp h with ⟨h12, h3⟩
  rcases Bool.and_eq_true_iff.mp h12 with ⟨h1, h2⟩
  exact ⟨beq_iff_eq.mp h1, h2, beq_iff_eq.mp h3⟩

lemma isChainValidFrom_all_ok (hF : HashFun) (vF : VerifyFun) :
    ∀ (rest : List Block) (previousBlock : Block) (i : Nat),
      (∀ k, ¬ badPairAt hF vF (previousBlock :: rest) k) →
      isChainValidFrom hF vF previousBlock rest i = ⟨true, -1⟩
  | [], _, _, _ => rfl
  | cur :: rest, prev, i, h => by
    have hok : blockOk hF vF prev cur = true := by
      by_contra hne
      exact h 0 ⟨by simp, by simpa using Bool.eq_false_iff.mpr hne⟩
    obtain ⟨h1, h2, h3⟩ := blockOk_decompose hF vF prev cur hok
    have h3p : cur.hash = calculateHash hF cur.index prev.hash
        cur.timestamp cur.transactions cur.nonce := by rw [← h1]; exact h3
    have hshift : ∀ k, ¬ badPairAt hF vF (cur :: rest) k := fun k hk =>
      h (k + 1) ((badPairAt_cons_succ hF vF prev (cur :: rest) k).mpr hk)
    calc isChainValidFrom hF vF prev (cur :: rest) i
        = isChainValidFrom hF vF cur rest (i + 1) := by
          simp [isChainValidFrom, h1, h2, h3p]
      _ = ⟨true, -1⟩ := isChainValidFrom_all_ok hF vF rest cur (i + 1) hshift

lemma isChainValidFrom_first_bad (hF : HashFun) (vF : VerifyFun) :
    ∀ (rest : List Block) (previousBlock : Block) (i k : Nat),
      badPairAt hF vF (previousBlock :: rest) k →
      (∀ j, j < k → ¬ badPairAt hF vF (previousBlock :: rest) j) →
      isChainValidFrom hF vF previousBlock rest i = ⟨false, (i : Int) + (k : Int)⟩
  | [], _, _, k, hbad, _ => by
    exact absurd hbad.1 (by simp)
  | cur :: rest, prev, i, 0, hbad, _ => by
    have hbo : blockOk hF vF prev cur = false := by simpa using hbad.2
    by_cases h1 : cur.previousHash = prev.hash
    · by_cases h2 : cur.transactions.all (txSignatureOk vF) = true
      · by_cases h3 : cur.hash = calculateHash hF cur.index cur.previousHash
            cur.timestamp cur.transactions cur.nonce
        · exfalso
          have : blockOk hF vF prev cur = true := by
            unfold blockOk linkOk sigsOk hashOk
            simp [h1, h2, h3]
          simp [this] at hbo
        · have h3p : ¬ cur.hash = calculateHash hF cur.index prev.hash
              cur.timestamp cur.transactions cur.nonce := by rw [← h1]; exact h3
          simp [isChainValidFrom, h1, h2, h3p]
      · simp [isChainValidFrom, h1, h2]
    · simp [isChainValidFrom, h1]
  | cur :: rest, prev, i, k + 1, hbad, hmin => by
    have hok : blockOk hF vF prev cur = true := by
      by_contra hne
      exact hmin 0 (Nat.succ_pos k) ⟨by simp, by simpa using Bool.eq_false_iff.mpr hne⟩
    obtain ⟨h1, h2, h3⟩ := blockOk_decompose hF vF prev cur hok
    have h3p : cur.hash = calculateHash hF cur.index prev.hash
        cur.timestamp cur.transactions cur.nonce := by rw [← h1]; exact h3
    have hbad' : badPairAt hF vF (cur :: rest) k :=
      (badPairAt_cons_succ hF vF prev (cur :: rest) k).mp hbad
    have hmin' : ∀ j, j < k → ¬ badPairAt hF vF (cur :: rest) j := fun j hj hb =>
      hmin (j + 1) (Nat.succ_lt_succ hj)
        ((badPairAt_cons_succ hF vF prev (cur :: rest) j).mpr hb)
    calc isChainValidFrom hF vF prev (cur :: rest) i
        = isChainValidFrom hF vF cur rest (i + 1) := by
          simp [isChainValidFrom, h1, h2, h3p]
      _ = ⟨false, ((i + 1 : Nat) : Int) + (k : Int)⟩ :=
          isChainValidFrom_first_bad hF vF rest cur (i + 1) k hbad' hmin'
      _ = ⟨false, (i : Int) + ((k + 1 : Nat) : Int)⟩ := by
          congr 1
          push_cast
          ring

lemma isChainValid_cons (hF : HashFun) (vF : VerifyFun) (bc : Blockchain)
    (g : Block) (rest : List Block) (hc : bc.chain = g :: rest) :
    isChainValid hF vF bc = isChainValidFrom hF vF g rest 1 := by
  unfold isChainValid
  rw [hc]

/-- Claim C1: the validator examines blocks 1..N-1 in ascending order and
returns ⟨false, i⟩ exactly for the first block index i = k + 1 whose pair
(chain[k], chain[k+1]) fails one of the three checks — previous-hash link,
signatures of non-SYSTEM transactions, recomputed hash, applied in that
order with an early return — and returns ⟨true, -1⟩ iff no block fails.
Validity depends only on the adjacent pairs from block 1 on, so the genesis
block is never checked on its own. -/
theorem claim_C1_validator_scan (hF : HashFun) (vF : VerifyFun) (bc : Blockchain) :
    (isChainValid hF vF bc = ⟨true, -1⟩ ∧ ∀ k, ¬ badPairAt hF vF bc.chain k) ∨
    (∃ k, badPairAt hF vF bc.chain k ∧
      (∀ j, j < k → ¬ badPairAt hF vF bc.chain j) ∧
      isChainValid hF vF bc = ⟨false, (k : Int) + 1⟩) := by
  by_cases hex : ∃ k, badPairAt hF vF bc.chain k
  · right
    obtain ⟨k0, hbad, hmin⟩ :
        ∃ k0, badPairAt hF vF bc.chain k0 ∧
          ∀ j, j < k0 → ¬ badPairAt hF vF bc.chain j :=
      ⟨Nat.find hex, Nat.find_spec hex, fun j hj => Nat.find_min hex hj⟩
    refine ⟨k0, hbad, hmin, ?_⟩
    have hne : bc.chain ≠ [] := by
      intro h0
      rw [h0] at hbad
      exact absurd hbad.1 (by simp)
    obtain ⟨g, rest, hc⟩ := List.exists_cons_of_ne_nil hne
    rw [hc] at hbad hmin
    rw [isChainValid_cons hF vF bc g rest hc,
      isChainValidFrom_first_bad hF vF rest g 1 k0 hbad hmin]
    congr 1
    ring
  · left
    push_neg at hex
    refine ⟨?_, hex⟩
    cases hc : bc.chain with
    | nil =>
      unfold isChainValid
      rw [hc]
    | cons g rest =>
      rw [isChainValid_cons hF vF bc g rest hc]
      exact isChainValidFrom_all_ok hF vF rest g 1 (hc ▸ hex)

lemma corruptChainAt_length (ts : Nat) :
    ∀ (n : Nat) (l : List Block), (corruptChainAt ts n l).length = l.length
  | _, [] => by cases ‹Nat› <;> rfl
  | 0, _ :: _ => rfl
  | n + 1, b :: rest => by
    simp [corruptChainAt, corruptChainAt_length ts n rest]

lemma corruptBlock_chain_length (bc : Blockchain) (i ts : Nat) :
    (corruptBlock bc i ts).chain.length = bc.chain.length := by
  unfold corruptBlock
  split
  · simp [corruptChainAt_length]
  · rfl

/-- Claim C8, amended: for every committed block index i ≥ 1 (not the
genesis index 0), if the corrupted block's recomputed digest differs from
its stored hash — which SHA-256 collision resistance guarantees whenever the
corruption changes the serialized transaction list — then corruptBlock(i)
followed by validate() reports invalid at an index ≤ i. -/
theorem claim_C8_amended (hF : HashFun) (vF : VerifyFun) (bc : Blockchain)
    (i ts : Nat) (hge : 1 ≤ i) (hlt : i < bc.chain.length)
    (hbad : hashOk hF ((corruptBlock bc i ts).chain.getD i blankBlock) = false) :
    (isChainValid hF vF (corruptBlock bc i ts)).isValid = false ∧
      (isChainValid hF vF (corruptBlock bc i ts)).errorBlockIndex ≤ (i : Int) := by
  obtain ⟨j, rfl⟩ : ∃ j, i = j + 1 := ⟨i - 1, by omega⟩
  have hlen : (corruptBlock bc (j + 1) ts).chain.length = bc.chain.length :=
    corruptBlock_chain_length bc (j + 1) ts
  have hbadpair : badPairAt hF vF (corruptBlock bc (j + 1) ts).chain j := by
    refine ⟨by omega, ?_⟩
    unfold blockOk
    rw [hbad]
    simp
  have hex : ∃ k, badPairAt hF vF (corruptBlock bc (j + 1) ts).chain k :=
    ⟨j, hbadpair⟩
  obtain ⟨k0, hbad0, hmin0, hk0le⟩ :
      ∃ k0, badPairAt hF vF (corruptBlock bc (j + 1) ts).chain k0 ∧
        (∀ m, m < k0 → ¬ badPairAt hF vF (corruptBlock bc (j + 1) ts).chain m) ∧
        k0 ≤ j :=
    ⟨Nat.find hex, Nat.find_spec hex, fun m hm => Nat.find_min hex hm,
      Nat.find_min' hex hbadpair⟩
  have hne : (corruptBlock bc (j + 1) ts).chain ≠ [] := by
    intro h0
    rw [h0] at hbad0
    exact absurd hbad0.1 (by simp)
  obtain ⟨g, rest, hc⟩ := List.exists_cons_of_ne_nil hne
  rw [hc] at hbad0 hmin0
  rw [isChainValid_cons hF vF _ g rest hc,
    isChainValidFrom_first_bad hF vF rest g 1 k0 hbad0 hmin0]
  refine ⟨rfl, ?_⟩
  show (1 : Int) + (k0 : Int) ≤ ((j + 1 : Nat) : Int)
  have hcast : (k0 : Int) ≤ (j : Int) := by exact_mod_cast hk0le
  push_cast
  omega

lemma powSearch_some (hF : HashFun) (index : Nat) (previousHash : String)
    (timestamp : Nat) (transactions : List Transaction) (difficulty : Nat) :
    ∀ (fuel start nonce : Nat) (hs : String),
      powSearch hF index previousHash timestamp transactions difficulty fuel start =
        some (nonce, hs) →
      start ≤ nonce ∧
        hs = calculateHash hF index previousHash timestamp transactions nonce ∧
        meetsDifficulty hs difficulty = true ∧
        ∀ m, start ≤ m → m < nonce →
          meetsDifficulty
            (calculateHash hF index previousHash timestamp transactions m)
            difficulty = false
  | 0, start, nonce, hs => by
    intro hps
    exact absurd hps (by simp [powSearch])
  | fuel + 1, start, nonce, hs => by
    intro hps
    simp only [powSearch] at hps
    by_cases hm : meetsDifficulty
        (calculateHash hF index previousHash timestamp transactions start)
        difficulty = true
    · rw [if_pos hm] at hps
      simp only [Option.some.injEq, Prod.mk.injEq] at hps
      obtain ⟨rfl, rfl⟩ := hps
      exact ⟨Nat.le_refl _, rfl, hm, fun m h1 h2 => absurd (Nat.lt_of_le_of_lt h1 h2)
        (Nat.lt_irrefl _)⟩
    · rw [if_neg hm] at hps
      obtain ⟨hle, hcalc, hmeets, hmins⟩ :=
        powSearch_some hF index previousHash timestamp transactions difficulty
          fuel (start + 1) nonce hs hps
      refine ⟨by omega, hcalc, hmeets, ?_⟩
      intro m h1 h2
      rcases Nat.eq_or_lt_of_le h1 with rfl | hlt
      · exact Bool.eq_false_iff.mpr hm
      · exact hmins m hlt h2

lemma mine_some_elim (hF : HashFun) (bc : Blockchain) (minerAddress rewardId : String)
    (rewardTimestamp timestamp fuel : Nat) (bc' : Blockchain) (b : Block)
    (hmine : minePendingTransactions hF bc minerAddress rewardId rewardTimestamp
        timestamp fuel = (bc', some b)) :
    ∃ previousBlock nonce hs,
      bc.chain.getLast? = some previousBlock ∧
      powSearch hF (previousBlock.index + 1) previousBlock.hash timestamp
        (bc.pendingTransactions ++
          [mineRewardTx minerAddress bc.miningReward rewardId rewardTimestamp])
        bc.difficulty fuel 0 = some (nonce, hs) ∧
      b = { index := previousBlock.index + 1
            timestamp := timestamp
            transactions := bc.pendingTransactions ++
              [mineRewardTx minerAddress bc.miningReward rewardId rewardTimestamp]
            previousHash := previousBlock.hash
            hash := hs
            nonce := nonce
            difficulty := bc.difficulty } ∧
      bc' = { bc with chain := bc.chain ++ [b], pendingTransactions := [] } := by
  unfold minePendingTransactions at hmine
  split at hmine
  · exact absurd hmine (by simp)
  next prev hprev =>
    simp only [] at hmine
    split at hmine
    · exact absurd hmine (by simp)
    next nonce hs hps =>
      simp only [Prod.mk.injEq, Option.some.injEq] at hmine
      obtain ⟨hbc, hb⟩ := hmine
      subst hb
      exact ⟨prev, nonce, hs, hprev, hps, rfl, hbc.symm⟩

/-- Claim C3: a completed mining operation appends exactly one block, with
index one past the last block, previousHash the last block's hash, the pool
contents in order followed by exactly one synthesized reward transaction
(sender the SYSTEM sentinel, recipient the miner, amount the configured
reward, signature the system reward sentinel), the configured difficulty,
and leaves the pending pool empty. -/
theorem claim_C3_mine_commit (hF : HashFun) (bc : Blockchain)
    (minerAddress rewardId : String) (rewardTimestamp timestamp fuel : Nat)
    (bc' : Blockchain) (b : Block) (lastBlock : Block)
    (hlast : bc.chain.getLast? = some lastBlock)
    (hmine : minePendingTransactions hF bc minerAddress rewardId rewardTimestamp
        timestamp fuel = (bc', some b)) :
    bc'.chain = bc.chain ++ [b] ∧
      b.index = lastBlock.index + 1 ∧
      b.previousHash = lastBlock.hash ∧
      b.timestamp = timestamp ∧
      b.transactions = bc.pendingTransactions ++
        [mineRewardTx minerAddress bc.miningReward rewardId rewardTimestamp] ∧
      (mineRewardTx minerAddress bc.miningReward rewardId rewardTimestamp).sender
        = "SYSTEM" ∧
      (mineRewardTx minerAddress bc.miningReward rewardId rewardTimestamp).recipient
        = minerAddress ∧
      (mineRewardTx minerAddress bc.miningReward rewardId rewardTimestamp).amount
        = bc.miningReward ∧
      (mineRewardTx minerAddress bc.miningReward rewardId rewardTimestamp).signature
        = "SYSTEM_REWARD" ∧
      b.difficulty = bc.difficulty ∧
      bc'.pendingTransactions = [] := by
  obtain ⟨prev, nonce, hs, hprev, hps, hb, hbc⟩ :=
    mine_some_elim hF bc minerAddress rewardId rewardTimestamp timestamp fuel
      bc' b hmine
  have hprev' : prev = lastBlock := by
    rw [hprev] at hlast
    exact Option.some.inj hlast
  subst hprev'
  subst hb
  subst hbc
  exact ⟨rfl, rfl, rfl, rfl, rfl, rfl, rfl, rfl, rfl, rfl, rfl⟩

/-- Claim C4: for a completed mining operation with its fixed
(index, previousHash, timestamp, transactions) tuple, the committed nonce is
the least nonzero-or-zero natural whose digest meets the difficulty: the
stored hash is the digest recomputed at the committed nonce, its first
`difficulty` characters are all '0', and every smaller nonce fails the
difficulty test (the search scans 0, 1, 2, ... without skipping). -/
theorem claim_C4_nonce_least (hF : HashFun) (bc : Blockchain)
    (minerAddress rewardId : String) (rewardTimestamp timestamp fuel : Nat)
    (bc' : Blockchain) (b : Block) (lastBlock : Block)
    (hlast : bc.chain.getLast? = some lastBlock)
    (hmine : minePendingTransactions hF bc minerAddress rewardId rewardTimestamp
        timestamp fuel = (bc', some b)) :
    b.hash = calculateHash hF (lastBlock.index + 1) lastBlock.hash timestamp
      (bc.pendingTransactions ++
        [mineRewardTx minerAddress bc.miningReward rewardId rewardTimestamp])
      b.nonce ∧
    b.hash.data.take bc.difficulty = List.replicate bc.difficulty '0' ∧
    ∀ m, m < b.nonce →
      meetsDifficulty
        (calculateHash hF (lastBlock.index + 1) lastBlock.hash timestamp
          (bc.pendingTransactions ++
            [mineRewardTx minerAddress bc.miningReward rewardId rewardTimestamp]) m)
        bc.difficulty = false := by
  obtain ⟨prev, nonce, hs, hprev, hps, hb, hbc⟩ :=
    mine_some_elim hF bc minerAddress rewardId rewardTimestamp timestamp fuel
      bc' b hmine
  have hprev' : prev = lastBlock := by
    rw [hprev] at hlast
    exact Option.some.inj hlast
  subst hprev'
  obtain ⟨-, hcalc, hmeets, hmins⟩ :=
    powSearch_some hF (prev.index + 1) prev.hash timestamp
      (bc.pendingTransactions ++
        [mineRewardTx minerAddress bc.miningReward rewardId rewardTimestamp])
      bc.difficulty fuel 0 nonce hs hps
  subst hb
  refine ⟨hcalc, ?_, fun m hm => hmins m (Nat.zero_le m) hm⟩
  simpa [meetsDifficulty, powTarget] using hmeets

/-- Claim C9: a mining call that does not commit a block — the cooperative
search was abandoned at a checkpoint before completion — leaves the chain
and the pending pool exactly as they were. -/
theorem claim_C9_cancel_frame (hF : HashFun) (bc : Blockchain)
    (minerAddress rewardId : String) (rewardTimestamp timestamp fuel : Nat)
    (bc2 : Blockchain)
    (hm : minePendingTransactions hF bc minerAddress rewardId rewardTimestamp
        timestamp fuel = (bc2, none)) :
    bc2.chain = bc.chain ∧ bc2.pendingTransactions = bc.pendingTransactions := by
  unfold minePendingTransactions at hm
  split at hm
  · simp only [Prod.mk.injEq] at hm
    rw [← hm.1]
    exact ⟨rfl, rfl⟩
  next prev hprev =>
    simp only [] at hm
    split at hm
    · simp only [Prod.mk.injEq] at hm
      rw [← hm.1]
      exact ⟨rfl, rfl⟩
    next nonce hs hps =>
      exact absurd hm (by simp)

lemma txFold_eq (address : String) :
    ∀ (txs : List Transaction) (acc : Int),
      txs.foldl (fun bal trans =>
        let bal := if trans.sender == address then bal - (trans.amount : Int) else bal
        if trans.recipient == address then bal + (trans.amount : Int) else bal) acc =
      acc + (txs.map (txDelta address)).sum
  | [], acc => by simp
  | tx :: txs, acc => by
    rw [List.foldl_cons, txFold_eq address txs]
    simp only [List.map_cons, List.sum_cons]
    unfold txDelta
    by_cases hs : (tx.sender == address) = true <;>
      by_cases hr : (tx.recipient == address) = true <;>
        simp [hs, hr] <;> ring

lemma chainFold_eq (address : String) :
    ∀ (chain : List Block) (acc : Int),
      chain.foldl (fun bal block =>
        block.transactions.foldl (fun bal trans =>
          let bal := if trans.sender == address then bal - (trans.amount : Int) else bal
          if trans.recipient == address then bal + (trans.amount : Int) else bal) bal) acc =
      acc + chainDelta address chain
  | [], acc => by simp [chainDelta]
  | b :: chain, acc => by
    rw [List.foldl_cons, chainFold_eq address chain, txFold_eq address]
    simp only [chainDelta, blockDelta, List.map_cons, List.sum_cons]
    ring

lemma pendFold_eq (address : String) :
    ∀ (txs : List Transaction) (acc : Int),
      txs.foldl (fun bal trans =>
        if trans.sender == address then bal - (trans.amount : Int) else bal) acc =
      acc - sentSum address txs
  | [], acc => by simp [sentSum]
  | tx :: txs, acc => by
    rw [List.foldl_cons, pendFold_eq address txs]
    by_cases hs : tx.sender = address <;>
      simp [sentSum, hs] <;> ring

lemma getBalanceOfAddress_eq (bc : Blockchain) (address : String) :
    getBalanceOfAddress bc address =
      chainDelta address bc.chain - sentSum address bc.pendingTransactions := by
  unfold getBalanceOfAddress
  rw [pendFold_eq, chainFold_eq]
  simp

lemma txDelta_sum (address : String) :
    ∀ txs : List Transaction,
      (txs.map (txDelta address)).sum = recvSum address txs - sentSum address txs
  | [] => by simp [recvSum, sentSum]
  | tx :: txs => by
    simp only [List.map_cons, List.sum_cons, txDelta_sum address txs,
      recvSum, sentSum]
    unfold txDelta
    ring

lemma txDelta_rewardTx (address minerAddress rewardId : String)
    (reward rewardTimestamp : Nat) (haddr : address ≠ "SYSTEM") :
    txDelta address (mineRewardTx minerAddress reward rewardId rewardTimestamp) =
      if minerAddress = address then (reward : Int) else 0 := by
  unfold txDelta mineRewardTx
  have hsys : (("SYSTEM" : String) == address) = false :=
    beq_eq_false_iff_ne.mpr (Ne.symm haddr)
  simp [hsys, beq_iff_eq]

/-- Claim C6, amended: balanceOf equals the committed replay sum (+amount to
the recipient, -amount from the sender, in chain order) minus the amounts of
pending transactions the address sent; pending receipts are never credited
and the `fee` field is ignored — no additional fee debit exists. -/
theorem claim_C6_amended (bc : Blockchain) (address : String) :
    getBalanceOfAddress bc address =
      chainDelta address bc.chain - sentSum address bc.pendingTransactions :=
  getBalanceOfAddress_eq bc address

/-- Claim C7, amended: across a completed mining operation, the balance of
any address other than the SYSTEM sentinel changes by exactly the amounts it
received in the included transactions, plus the configured reward when it is
the miner.  Sending transactions cause no further decrease at mining time:
their debit was already reflected by the pending-pool deduction before the
mine call, and fees are never debited. -/
theorem claim_C7_amended (hF : HashFun) (bc : Blockchain)
    (minerAddress rewardId : String) (rewardTimestamp timestamp fuel : Nat)
    (bc' : Blockchain) (b : Block) (address : String)
    (hmine : minePendingTransactions hF bc minerAddress rewardId rewardTimestamp
        timestamp fuel = (bc', some b))
    (haddr : address ≠ "SYSTEM") :
    getBalanceOfAddress bc' address =
      getBalanceOfAddress bc address +
        recvSum address bc.pendingTransactions +
        (if minerAddress = address then (bc.miningReward : Int) else 0) := by
  obtain ⟨prev, nonce, hs, hprev, hps, hb, hbc⟩ :=
    mine_some_elim hF bc minerAddress rewardId rewardTimestamp timestamp fuel
      bc' b hmine
  subst hbc
  rw [getBalanceOfAddress_eq, getBalanceOfAddress_eq]
  simp only [chainDelta, List.map_append, List.sum_append, List.map_cons,
    List.map_nil, List.sum_cons, List.sum_nil]
  rw [hb]
  simp only [blockDelta]
  rw [List.map_append, List.sum_append]
  simp only [List.map_cons, List.map_nil, List.sum_cons, List.sum_nil, add_zero]
  rw [txDelta_sum address bc.pendingTransactions,
    txDelta_rewardTx address minerAddress rewardId bc.miningReward
      rewardTimestamp haddr]
  simp [sentSum]
  ring

/-- Claim C2: the validator's reconstructed message coincides with the
legacy no-fee signing convention for every transaction, but differs from the
string the current fee-carrying wallet path signs already on the concrete
transaction (A, B, amount 10, fee 1, timestamp 0): "AB1010" was signed while
"AB100" is verified.  Honest fee transactions therefore fail the validator's
signature check. -/
theorem claim_C2_canonical_message :
    (∀ tx : Transaction,
      validatorMessage tx =
        handleSendMessage tx.sender tx.recipient tx.amount tx.timestamp) ∧
    confirmSendMessage txFeeCex.sender txFeeCex.recipient txFeeCex.amount 1
        txFeeCex.timestamp ≠ validatorMessage txFeeCex :=
  ⟨fun _ => rfl, by decide⟩

/-- Claim C5: submission rejects with MissingField when sender or recipient
is empty, otherwise with MissingSignature when the signature is empty, in
both cases leaving the pool untouched; every other transaction is appended
to the end of the pool, and acceptance depends on the transaction alone —
no signature verification, duplicate-id or balance check — so resubmitting
an already-mined, unchanged signed transaction is always accepted. -/
theorem claim_C5_submit_rules (bc : Blockchain) (tx : Transaction) :
    ((tx.sender = "" ∨ tx.recipient = "") →
      addTransaction bc tx = (some TxError.MissingField, bc)) ∧
    (tx.sender ≠ "" → tx.recipient ≠ "" → tx.signature = "" →
      addTransaction bc tx = (some TxError.MissingSignature, bc)) ∧
    (tx.sender ≠ "" → tx.recipient ≠ "" → tx.signature ≠ "" →
      addTransaction bc tx =
        (none, { bc with pendingTransactions := bc.pendingTransactions ++ [tx] })) ∧
    (∀ bc2 : Blockchain, (addTransaction bc tx).1 = (addTransaction bc2 tx).1) := by
  refine ⟨?_, ?_, ?_, ?_⟩
  · intro h
    unfold addTransaction
    rw [if_pos h]
  · intro h1 h2 h3
    unfold addTransaction
    rw [if_neg (not_or.mpr ⟨h1, h2⟩), if_pos h3]
  · intro h1 h2 h3
    unfold addTransaction
    rw [if_neg (not_or.mpr ⟨h1, h2⟩), if_neg h3]
  · intro bc2
    unfold addTransaction
    by_cases h : tx.sender = "" ∨ tx.recipient = ""
    · simp [h]
    · by_cases h2 : tx.signature = "" <;> simp [h, h2]

set_option maxRecDepth 10000 in
/-- Claim C10: a transaction whose sender is the literal SYSTEM sentinel,
with arbitrary recipient, amount and any non-empty signature, is accepted by
addTransaction; once mined, the validator skips signature verification on it
(here the verifier rejects everything, yet the chain validates), so
reward-style transactions crediting arbitrary amounts can be forged without
any key. -/
theorem claim_C10_forged_system_tx :
    (addTransaction bcW forgedTx).1 = none ∧
    bcC10.pendingTransactions = [forgedTx] ∧
    resC10.2.isSome = true ∧
    forgedTx ∈ (resC10.2.getD blankBlock).transactions ∧
    isChainValid idHash rejectAll resC10.1 = ⟨true, -1⟩ := by
  refine ⟨rfl, rfl, rfl, ?_, ?_⟩
  · decide
  · decide

/-- Counterexample to claim C6 as stated: on a chain holding one committed
transaction from A with amount 10 and fee 1, the engine computes balance -10
for A while the claim's fee-debit rule demands -11; getBalanceOfAddress
never reads the fee field. -/
theorem claim_C6_counterexample :
    getBalanceOfAddress bcFeeCex "A" = -10 ∧
    balanceSpecWithFee bcFeeCex "A" = -11 ∧
    getBalanceOfAddress bcFeeCex "A" ≠ balanceSpecWithFee bcFeeCex "A" := by
  refine ⟨?_, ?_, ?_⟩ <;> decide

/-- Counterexample to claim C7 as stated: mining commits the pending
transaction txAB sent by A (amount 10), yet A's balance is -10 both
immediately before and immediately after the mine call — the debit had
already been applied through the pending pool, so the balance does not
decrease by the amount across the mining operation. -/
theorem claim_C7_counterexample :
    (minePendingTransactions idHash bcC7 "M" "r" 0 1 1).2.isSome = true ∧
    txAB ∈ blkC7.transactions ∧
    getBalanceOfAddress bcC7 "A" = -10 ∧
    getBalanceOfAddress bcC7after "A" = -10 ∧
    ¬ (getBalanceOfAddress bcC7after "A" - getBalanceOfAddress bcC7 "A" = -10) := by
  refine ⟨rfl, ?_, ?_, ?_, ?_⟩ <;> decide

theorem claim_C7_amended_witness :
    (minePendingTransactions idHash bcC7 "M" "r" 0 1 1 = (bcC7after, some blkC7) ∧
      ("B" : String) ≠ "SYSTEM") ∧
    getBalanceOfAddress bcC7after "B" =
      getBalanceOfAddress bcC7 "B" + recvSum "B" bcC7.pendingTransactions +
        (if ("M" : String) = "B" then (bcC7.miningReward : Int) else 0) :=
  ⟨⟨rfl, by decide⟩,
    claim_C7_amended idHash bcC7 "M" "r" 0 1 1 bcC7after blkC7 "B" rfl (by decide)⟩

/-- Counterexample to claim C8 as stated: 0 is the index of a committed
block, yet after corrupting block 1 and then block 0 the validator reports
first invalid index 1 > 0 — corruption of the genesis block is never
examined, so firstInvalidIndex is not bounded by i = 0. -/
theorem claim_C8_counterexample :
    0 < bcCorrupt10.chain.length ∧
    isChainValid idHash rejectAll bcCorrupt10 = ⟨false, 1⟩ ∧
    ¬ ((isChainValid idHash rejectAll bcCorrupt10).errorBlockIndex ≤ (0 : Int)) := by
  refine ⟨?_, ?_, ?_⟩ <;> decide

theorem claim_C8_amended_witness :
    (1 ≤ 1 ∧ 1 < bcW1.chain.length ∧
      hashOk idHash ((corruptBlock bcW1 1 7).chain.getD 1 blankBlock) = false) ∧
    ((isChainValid idHash rejectAll (corruptBlock bcW1 1 7)).isValid = false ∧
      (isChainValid idHash rejectAll (corruptBlock bcW1 1 7)).errorBlockIndex
        ≤ ((1 : Nat) : Int)) :=
  ⟨⟨by decide, by decide, by decide⟩,
    claim_C8_amended idHash rejectAll bcW1 1 7 (by decide) (by decide) (by decide)⟩

theorem claim_C3_witness :
    (bcW.chain.getLast? = some gen0 ∧
      minePendingTransactions idHash bcW "M" "r" 0 0 1 = (bcW1, some blkW1)) ∧
    (bcW1.chain = bcW.chain ++ [blkW1] ∧
      blkW1.index = gen0.index + 1 ∧
      blkW1.previousHash = gen0.hash ∧
      blkW1.timestamp = 0 ∧
      blkW1.transactions = bcW.pendingTransactions ++
        [mineRewardTx "M" bcW.miningReward "r" 0] ∧
      (mineRewardTx "M" bcW.miningReward "r" 0).sender = "SYSTEM" ∧
      (mineRewardTx "M" bcW.miningReward "r" 0).recipient = "M" ∧
      (mineRewardTx "M" bcW.miningReward "r" 0).amount = bcW.miningReward ∧
      (mineRewardTx "M" bcW.miningReward "r" 0).signature = "SYSTEM_REWARD" ∧
      blkW1.difficulty = bcW.difficulty ∧
      bcW1.pendingTransactions = []) :=
  ⟨⟨rfl, rfl⟩,
    claim_C3_mine_commit idHash bcW "M" "r" 0 0 1 bcW1 blkW1 gen0 rfl rfl⟩

theorem claim_C4_witness :
    (bcW.chain.getLast? = some gen0 ∧
      minePendingTransactions idHash bcW "M" "r" 0 0 1 = (bcW1, some blkW1)) ∧
    (blkW1.hash = calculateHash idHash (gen0.index + 1) gen0.hash 0
        (bcW.pendingTransactions ++ [mineRewardTx "M" bcW.miningReward "r" 0])
        blkW1.nonce ∧
      blkW1.hash.data.take bcW.difficulty = List.replicate bcW.difficulty '0' ∧
      ∀ m, m < blkW1.nonce →
        meetsDifficulty (calculateHash idHash (gen0.index + 1) gen0.hash 0
          (bcW.pendingTransactions ++ [mineRewardTx "M" bcW.miningReward "r" 0]) m)
          bcW.difficulty = false) :=
  ⟨⟨rfl, rfl⟩,
    claim_C4_nonce_least idHash bcW "M" "r" 0 0 1 bcW1 blkW1 gen0 rfl rfl⟩

theorem claim_C5_witness :
    (txNoSig.sender ≠ "" ∧ txNoSig.recipient ≠ "" ∧ txNoSig.signature = "") ∧
    addTransaction bcW txNoSig = (some TxError.MissingSignature, bcW) :=
  ⟨⟨by decide, by decide, rfl⟩,
    (claim_C5_submit_rules bcW txNoSig).2.1 (by decide) (by decide) rfl⟩

theorem claim_C9_witness :
    minePendingTransactions idHash bcW9 "M" "r" 0 0 3 =
      ((minePendingTransactions idHash bcW9 "M" "r" 0 0 3).1, none) ∧
    ((minePendingTransactions idHash bcW9 "M" "r" 0 0 3).1.chain = bcW9.chain ∧
      (minePendingTransactions idHash bcW9 "M" "r" 0 0 3).1.pendingTransactions =
        bcW9.pendingTransactions) :=
  ⟨rfl, claim_C9_cancel_frame idHash bcW9 "M" "r" 0 0 3
    (minePendingTransactions idHash bcW9 "M" "r" 0 0 3).1 rfl⟩
